import Mathlib

/-
  Verification of the path, cache-store, materializer and output-sanitizer
  helpers of src/src/Util.cpp (a ccache fork).  Strings are modelled as
  List Char; the POSIX branch of each function is embedded (the Windows
  branches are compiled out on POSIX).  Filesystem effects are modelled by
  explicit state or outcome records.
-/

/-! ## Path operations (pure, from src/src/Util.cpp) -/

/-- Util::is_absolute_path, POSIX branch: a path is absolute when it is
nonempty and its first character is a slash. -/
def is_absolute_path (path : List Char) : Bool :=
  match path with
  | [] => false
  | c :: _ => c = '/'

/-- Util::dir_name: the substring before the last slash; a dot when there is
no slash; the root when the last slash is at index 0. -/
def dir_name (path : List Char) : List Char :=
  let tail := path.reverse.takeWhile (fun c => c ≠ '/')
  if tail.length = path.length then ['.']
  else if path.length = tail.length + 1 then ['/']
  else path.take (path.length - tail.length - 1)

/-- Segments of a string split at slashes.  The loop of
Util::normalize_absolute_path visits exactly the slash-separated segments of
the path after the leading slash; when the path ends in a slash the loop
breaks before visiting the final empty segment, but an empty segment is a
no-op for the loop body, so including it (as this split does) leaves the
result unchanged. -/
def splitSlash : List Char → List (List Char)
  | [] => [[]]
  | c :: rest =>
    if c = '/' then [] :: splitSlash rest
    else (splitSlash rest).modifyHead (fun s => c :: s)

/-- Model of result.erase(result.rfind(slash, result.length() - 2) + 1) in
Util::normalize_absolute_path: drop the last character, then drop the
trailing run of non-slash characters, keeping everything up to and including
the last slash found at or before index length - 2 (empty when none). -/
def eraseLastComponent (result : List Char) : List Char :=
  ((result.dropLast).reverse.dropWhile (fun c => c ≠ '/')).reverse

/-- Model of s.erase(s.find_last_not_of(slash) + 1): remove the trailing run
of slashes (the whole string when it is all slashes). -/
def dropTrailingSlashes (l : List Char) : List Char :=
  (l.reverse.dropWhile (fun c => c = '/')).reverse

/-- Loop body of Util::normalize_absolute_path, iterated over the
slash-separated segments: a dot-dot segment erases the last component of the
accumulated result (when the result is longer than the root), a dot segment
is skipped, and any other segment is appended followed by a slash when the
result does not already end in one. -/
def normSegs : List Char → List (List Char) → List Char
  | result, [] => result
  | result, part :: rest =>
    normSegs
      (if part = ['.', '.'] then
        (if 1 < result.length then eraseLastComponent result else result)
      else if part = ['.'] then result
      else
        (if (result ++ part).getLast? = some '/' then result ++ part
         else result ++ part ++ ['/']))
      rest

/-- Util::normalize_absolute_path, POSIX branch: returns the input unchanged
when it is not absolute; otherwise resolves dot and dot-dot segments
lexically starting from the root and finally strips trailing slashes when
the result is longer than the root. -/
def normalize_absolute_path (path : List Char) : List Char :=
  if is_absolute_path path then
    let result := normSegs ['/'] (splitSlash (path.drop 1))
    if 1 < result.length then dropTrailingSlashes result else result
  else path

/-- First while loop of Util::common_dir_prefix_length: the number of leading
positions at which the two strings agree (bounded by the shorter length). -/
def firstDiff : List Char → List Char → Nat
  | a :: as, b :: bs => if a = b then firstDiff as bs + 1 else 0
  | _, _ => 0

/-- Do-while loop of Util::common_dir_prefix_length: starting from an index,
walk down until reaching an index holding a slash in either string, or 0. -/
def backtrackSlash (dir path : List Char) : Nat → Nat
  | 0 => 0
  | i + 1 =>
    if dir.getD (i + 1) ' ' = '/' ∨ path.getD (i + 1) ' ' = '/' then i + 1
    else backtrackSlash dir path i

/-- Util::common_dir_prefix_length: zero when either side is empty or the
root; otherwise the agreement length when it falls on a boundary (both ends,
or one end followed by a slash on the other side), else the result of
backtracking to the previous slash.  The C++ do-while decrements before
testing, hence the backtrack starts at the predecessor of the agreement
length. -/
def common_dir_prefix_length (dir path : List Char) : Nat :=
  if dir = [] ∨ path = [] ∨ dir = ['/'] ∨ path = ['/'] then 0
  else
    let i := firstDiff dir path
    if i = dir.length ∧ i = path.length then i
    else if i = dir.length ∧ path.getD i ' ' = '/' then i
    else if i = path.length ∧ dir.getD i ' ' = '/' then i
    else backtrackSlash dir path (i - 1)

/-- Dot-dot emitting loop of Util::get_relative_path: for every slash in the
given character sequence, append dot-dot, separated from a nonempty
accumulated result by a slash. -/
def addDotDots (result : List Char) : List Char → List Char
  | [] => result
  | c :: rest =>
    addDotDots
      (if c = '/' then (if result = [] then result else result ++ ['/']) ++ ['.', '.']
       else result)
      rest

/-- Util::get_relative_path, POSIX branch (both arguments are asserted
absolute in the source): compute the common directory prefix length, emit one
dot-dot per slash in the remainder of dir (suppressed when the common prefix
is empty and dir is exactly the root), append the remainder of path after the
prefix and its separating slash, strip trailing slashes, and return a dot for
an empty result. -/
def get_relative_path (dir path : List Char) : List Char :=
  let common_prefix_len := common_dir_prefix_length dir path
  let r0 :=
    if 0 < common_prefix_len ∨ dir ≠ ['/'] then addDotDots [] (dir.drop common_prefix_len)
    else []
  let r1 :=
    if common_prefix_len < path.length then
      (if r0 = [] then r0 else r0 ++ ['/']) ++ path.drop (common_prefix_len + 1)
    else r0
  let r2 := dropTrailingSlashes r1
  if r2 = [] then ['.'] else r2

/-! ## Cache store layout (Util::get_path_in_cache) -/

/-- Fan-out loop of Util::get_path_in_cache: for each level below the given
count, append a slash followed by the character of the name at that level. -/
def levelDirs (name : List Char) : Nat → List Char
  | 0 => []
  | l + 1 => levelDirs name l ++ ['/', name.getD l ' ']

/-- Util::get_path_in_cache (the source asserts 1 ≤ levels ≤ 8 and
levels < name.length): the cache directory, one single-character directory
per level, a slash, the remainder of the name, and the suffix. -/
def get_path_in_cache (cache_dir : List Char) (levels : Nat)
    (name suffix : List Char) : List Char :=
  cache_dir ++ levelDirs name levels ++ ['/'] ++ name.drop levels ++ suffix

/-! ## ANSI CSI stripping (find_first_ansi_csi_seq, Util::strip_ansi_csi_seqs) -/

/-- Escape character 0x1b. -/
def escChar : Char := '\x1b'

/-- Parameter byte of a CSI sequence, range 0x30 to 0x3f. -/
def isCsiParam (c : Char) : Bool := 0x30 ≤ c.toNat && c.toNat ≤ 0x3f

/-- Intermediate byte of a CSI sequence, range 0x20 to 0x2f. -/
def isCsiInter (c : Char) : Bool := 0x20 ≤ c.toNat && c.toNat ≤ 0x2f

/-- Final byte accepted by the scanner: K or m. -/
def isCsiFinal (c : Char) : Bool := c = 'K' || c = 'm'

/-- Tail of the CSI parse, after the escape and open bracket: skip parameter
bytes, skip intermediate bytes, and require the next byte to exist and be K
or m; on success the full sequence length is two for the introducer plus the
skipped counts plus one for the final byte. -/
def parseCSIbody (rest : List Char) : Option Nat :=
  let p := (rest.takeWhile isCsiParam).length
  let rest2 := rest.drop p
  let q := (rest2.takeWhile isCsiInter).length
  let rest3 := rest2.drop q
  if 0 < rest3.length ∧ isCsiFinal (rest3.headD ' ') then some (2 + p + q + 1)
  else none

/-- Length of the CSI sequence starting at the head of the list, when the
list starts with a complete one: escape, open bracket, any parameter bytes,
any intermediate bytes, then K or m.  This is the parse performed by
find_first_ansi_csi_seq from the position of the first escape byte; the
source returns the empty view when the byte after the escape is missing or
is not an open bracket. -/
def parseCSIlen (s : List Char) : Option Nat :=
  match s with
  | c1 :: c2 :: rest => if c1 = escChar ∧ c2 = '[' then parseCSIbody rest else none
  | _ => none

/-- find_first_ansi_csi_seq (anonymous namespace of src/src/Util.cpp):
scan to the first escape byte; if what starts there is a complete CSI
sequence, return its start offset and length, otherwise return nothing.
The scan never looks past the first escape byte: when the parse at the first
escape fails the whole search fails. -/
def find_first_ansi_csi_seq : List Char → Option (Nat × Nat)
  | [] => none
  | c :: cs =>
    if c = escChar then (parseCSIlen (c :: cs)).map (fun l => (0, l))
    else (find_first_ansi_csi_seq cs).map (fun r => (r.1 + 1, r.2))

/-- Iteration of the loop of Util::strip_ansi_csi_seqs, with an explicit
iteration bound: each round either terminates (no sequence found, remainder
appended verbatim) or consumes the prefix plus a sequence of length at least
three, so a bound of the input length always suffices. -/
def stripCsiFuel : Nat → List Char → List Char
  | 0, s => s
  | fuel + 1, s =>
    match find_first_ansi_csi_seq s with
    | none => s
    | some (start, len) => s.take start ++ stripCsiFuel fuel (s.drop (start + len))

/-- Util::strip_ansi_csi_seqs: repeatedly remove the sequence located by
find_first_ansi_csi_seq, keeping everything before it, until no further
sequence is found; the remainder is kept verbatim. -/
def strip_ansi_csi_seqs (s : List Char) : List Char :=
  stripCsiFuel s.length s

/-- Specification-side scanner for the amended claim C3: scan left to right;
at an escape byte that begins a complete CSI sequence, drop the sequence and
continue after it; at an escape byte that does not, stop and keep the entire
remainder verbatim; any other byte is kept.  Written with the same explicit
iteration bound discipline as the implementation. -/
def scanStripFuel : Nat → List Char → List Char
  | 0, s => s
  | _ + 1, [] => []
  | fuel + 1, c :: cs =>
    if c = escChar then
      match parseCSIlen (c :: cs) with
      | some l => scanStripFuel fuel ((c :: cs).drop l)
      | none => c :: cs
    else c :: scanStripFuel fuel cs

/-- Entry point of the specification-side scanner. -/
def scanStrip (s : List Char) : List Char :=
  scanStripFuel s.length s

/-! ## Materializer (Util::clone_hard_link_or_copy_file) -/

/-- Outcome environment for one call of Util::clone_hard_link_or_copy_file:
the two configuration flags and the success of each filesystem operation the
call may attempt.  Paths are abstracted away; only control flow depends on
these values. -/
structure InstallEnv where
  file_clone : Bool
  hard_link : Bool
  clone_ok : Bool
  link_ok : Bool
  chmod_ok : Bool
  copy_ok : Bool
deriving DecidableEq

/-- Filesystem operations attempted by clone_hard_link_or_copy_file, with
the observed outcome where the source inspects one. -/
inductive FileOp
  | cloneFile (ok : Bool)
  | unlinkDest
  | linkFile (ok : Bool)
  | chmodDest (mode : Nat) (ok : Bool)
  | copyFile (ok : Bool)
deriving DecidableEq

/-- Util::clone_hard_link_or_copy_file: returns the boolean result of the
call together with the ordered trace of filesystem operations attempted.
When file_clone is set the clone is attempted and success returns at once;
when hard_link is set the destination is unlinked and the link attempted, a
successful link is followed by a chmod to 0444 whose failure is only logged;
in every remaining case the bytes are copied and the copy result returned. -/
def clone_hard_link_or_copy_file (e : InstallEnv) : Bool × List FileOp :=
  let cloneOps : List FileOp := if e.file_clone then [.cloneFile e.clone_ok] else []
  if e.file_clone && e.clone_ok then
    (true, cloneOps)
  else
    let linkOps := cloneOps ++ (if e.hard_link then [.unlinkDest, .linkFile e.link_ok] else [])
    if e.hard_link && e.link_ok then
      (true, linkOps ++ [.chmodDest 292 e.chmod_ok])
    else
      (e.copy_ok, linkOps ++ [.copyFile e.copy_ok])

/-! ## Directory creation (Util::create_dir) -/

/-- Errno value ENOTDIR as set by Util::create_dir. -/
def ENOTDIR : Nat := 20

/-- Errno value EEXIST as produced by mkdir on an existing directory. -/
def EEXIST : Nat := 17

/-- What Stat::stat reports for a path in the model: a directory, some
existing non-directory, or nothing. -/
inductive StatKind
  | dir
  | nondir
  | absent
deriving DecidableEq

/-- Outcome of one mkdir call in the model. -/
inductive MkdirResult
  | ok
  | eexist
  | err (e : Nat)
deriving DecidableEq

/-- Filesystem oracle for Util::create_dir: what stat reports per path and
what mkdir does per path.  Concurrent processes are modelled by letting
mkdir fail with EEXIST on a path stat reported absent. -/
structure FSModel where
  stat : List Char → StatKind
  mkdir : List Char → MkdirResult

/-- Result of one call of Util::create_dir in the model: the returned
boolean, the errno value the call (or a syscall inside it) set, and the
ordered list of paths passed to mkdir. -/
structure CDResult where
  ok : Bool
  errno : Option Nat
  mkdirs : List (List Char)
deriving DecidableEq

/-- Util::create_dir: stat the path; an existing directory is success, an
existing non-directory sets errno to ENOTDIR and fails; otherwise recurse on
dir_name, then mkdir, where failure with EEXIST still counts as success.
The recursion is bounded by explicit fuel; the source recurses on dir_name,
which strictly shortens any path that still holds a slash. -/
def create_dir (fs : FSModel) : Nat → List Char → CDResult
  | 0, _ => ⟨false, none, []⟩
  | fuel + 1, d =>
    match fs.stat d with
    | .dir => ⟨true, none, []⟩
    | .nondir => ⟨false, some ENOTDIR, []⟩
    | .absent =>
      let parent := create_dir fs fuel (dir_name d)
      if parent.ok then
        match fs.mkdir d with
        | .ok => ⟨true, parent.errno, parent.mkdirs ++ [d]⟩
        | .eexist => ⟨true, some EEXIST, parent.mkdirs ++ [d]⟩
        | .err e => ⟨false, some e, parent.mkdirs ++ [d]⟩
      else ⟨false, parent.errno, parent.mkdirs⟩

/-- Along the dir_name chain starting at the given path, the first element
that exists is a non-directory (false when the fuel runs out first).  On a
consistent filesystem this is exactly the condition that the path or one of
its ancestors exists and is not a directory. -/
def firstExistingNonDir (fs : FSModel) : Nat → List Char → Bool
  | 0, _ => false
  | fuel + 1, d =>
    match fs.stat d with
    | .dir => false
    | .nondir => true
    | .absent => firstExistingNonDir fs fuel (dir_name d)

/-! ## File preallocation (Util::fallocate, fallback branch) -/

/-- State of the open file behind a descriptor: its size and the current
file position. -/
structure FileState where
  size : Nat
  pos : Nat
deriving DecidableEq

/-- Model of lseek(fd, 0, SEEK_END): moves the position to the end of the
file and returns the resulting offset. -/
def lseekEnd (f : FileState) : FileState × Nat :=
  (⟨f.size, f.size⟩, f.size)

/-- Model of lseek(fd, p, SEEK_SET). -/
def lseekSet (f : FileState) (p : Nat) : FileState :=
  ⟨f.size, p⟩

/-- Model of write_fd writing n zero bytes at the current position. -/
def writeZeros (f : FileState) (n : Nat) : FileState :=
  ⟨max f.size (f.pos + n), f.pos + n⟩

/-- Util::fallocate, fallback branch (no posix_fallocate; allocation and
write failures are not modelled, the claim concerns the success path):
the source saves lseek(fd, 0, SEEK_END) as saved_pos, reads the old size
with a second lseek(fd, 0, SEEK_END), extends the file with zero bytes when
it is shorter than the requested size, and finally seeks back to saved_pos.
Returns the new state and the error number (0 for success). -/
def fallocate (f : FileState) (new_size : Nat) : FileState × Nat :=
  let (f1, saved_pos) := lseekEnd f
  let (f2, old_size) := lseekEnd f1
  if new_size ≤ old_size then
    (lseekSet f2 saved_pos, 0)
  else
    let bytes_to_write := new_size - old_size
    let f3 := writeZeros f2 bytes_to_write
    (lseekSet f3 saved_pos, 0)

/-! ## Specification-side definitions -/

/-- Stack interpretation of one segment for normalize_absolute_path: dot-dot
pops the last component, dot and the empty segment do nothing, any other
segment is pushed. -/
def normStep (st : List (List Char)) (part : List Char) : List (List Char) :=
  if part = ['.', '.'] then st.dropLast
  else if part = ['.'] ∨ part = [] then st
  else st ++ [part]

/-- Text form of a component stack as maintained by the loop of
normalize_absolute_path before the final trim: a slash, then every component
followed by a slash. -/
def reprStack (st : List (List Char)) : List Char :=
  '/' :: (st.map (fun x => x ++ ['/'])).flatten

/-- Component stack computed by normalize_absolute_path for an absolute
path. -/
def stackOf (p : List Char) : List (List Char) :=
  (splitSlash (p.drop 1)).foldl normStep []

/-- Final trim of normalize_absolute_path applied to the text form of a
component stack. -/
def renderStack (st : List (List Char)) : List Char :=
  if 1 < (reprStack st).length then dropTrailingSlashes (reprStack st) else reprStack st

/-- A position n is a directory boundary of the pair (dir, path) when each
of the two strings either ends at n or has a slash at n; restricted to
positions within the common prefix this says the common prefix of length n
ends where a complete directory name ends.  Written from the words of claim
C6. -/
def boundary_at (dir path : List Char) (n : Nat) : Prop :=
  (n = dir.length ∨ dir.getD n ' ' = '/') ∧ (n = path.length ∨ path.getD n ' ' = '/')

instance boundary_at_decidable (dir path : List Char) (n : Nat) :
    Decidable (boundary_at dir path n) := by
  unfold boundary_at
  infer_instance

/-- Specification-side form of common_dir_prefix_length, following claim C6:
zero when either side is empty or the root, otherwise the length of the
longest common prefix that ends on a directory boundary, that is the
greatest boundary position not exceeding the agreement length. -/
def spec_common_len (dir path : List Char) : Nat :=
  if dir = [] ∨ path = [] ∨ dir = ['/'] ∨ path = ['/'] then 0
  else Nat.findGreatest (boundary_at dir path) (firstDiff dir path)

/-- Trailing component of a path: the substring after the last slash (the
whole path when it has no slash). -/
def afterLastSlash (p : List Char) : List Char :=
  (p.reverse.takeWhile (fun c => c ≠ '/')).reverse

/-- Demonstration filesystem oracle for the create_dir theorems: the root
exists as a directory, one path exists as a non-directory, and mkdir
reports EEXIST everywhere (as when a concurrent process won the race). -/
def demoFS : FSModel :=
  ⟨fun p => if p = "/".data then .dir else if p = "/f".data then .nondir else .absent,
   fun _ => .eexist⟩

/-! ## General helper lemmas -/

theorem splitSlash_ne_nil (l : List Char) : splitSlash l ≠ [] := by
  cases l with
  | nil => simp [splitSlash]
  | cons c rest =>
    by_cases hc : c = '/' <;> simp [splitSlash, hc]
    cases hs : splitSlash rest with
    | nil => exact absurd hs (splitSlash_ne_nil rest)
    | cons a t => simp [List.modifyHead]

theorem modifyHead_append {α : Type} (f : α → α) (a b : List α) (h : a ≠ []) :
    (a ++ b).modifyHead f = a.modifyHead f ++ b := by
  cases a with
  | nil => exact absurd rfl h
  | cons x t => simp [List.modifyHead]

theorem splitSlash_append (x y : List Char) :
    splitSlash (x ++ '/' :: y) = splitSlash x ++ splitSlash y := by
  induction x with
  | nil => simp [splitSlash]
  | cons c rest ih =>
    by_cases hc : c = '/'
    · simp [splitSlash, hc, ih]
    · have h1 : splitSlash (c :: (rest ++ '/' :: y))
          = (splitSlash (rest ++ '/' :: y)).modifyHead (fun s => c :: s) := by
        simp [splitSlash, hc]
      have h2 : splitSlash (c :: rest) = (splitSlash rest).modifyHead (fun s => c :: s) := by
        simp [splitSlash, hc]
      rw [List.cons_append, h1, ih, modifyHead_append _ _ _ (splitSlash_ne_nil rest), h2]

theorem splitSlash_no_slash (l : List Char) (h : '/' ∉ l) : splitSlash l = [l] := by
  induction l with
  | nil => simp [splitSlash]
  | cons c rest ih =>
    simp only [List.mem_cons, not_or] at h
    simp [splitSlash, Ne.symm h.1, ih h.2, List.modifyHead]

/-! ## Claim C1: cache path layout -/

theorem levelDirs_eq_flatMap (name : List Char) (levels : Nat) :
    levelDirs name levels = (List.range levels).flatMap (fun i => ['/', name.getD i ' ']) := by
  induction levels with
  | zero => simp [levelDirs]
  | succ l ih => simp [levelDirs, ih, List.range_succ]

theorem splitSlash_levelDirs (name : List Char) (levels : Nat)
    (hlen : levels ≤ name.length) (hns : '/' ∉ name) :
    splitSlash (levelDirs name levels) = [] :: ((name.take levels).map fun c => [c]) := by
  induction levels with
  | zero => simp [levelDirs, splitSlash]
  | succ l ih =>
    have hl : l < name.length := hlen
    have hget : name.getD l ' ' = name[l] := List.getD_eq_getElem name ' ' hl
    have hne : name.getD l ' ' ≠ '/' := by
      rw [hget]
      intro hcontra
      exact hns (hcontra ▸ List.getElem_mem hl)
    have hmem : '/' ∉ [name.getD l ' '] := by
      intro hmem
      exact hne (List.mem_singleton.mp hmem).symm
    have hld : levelDirs name (l + 1) = levelDirs name l ++ '/' :: [name.getD l ' '] := rfl
    rw [hld, splitSlash_append, ih (Nat.le_of_succ_le hlen), splitSlash_no_slash _ hmem]
    have htake : name.take (l + 1) = name.take l ++ [name[l]] := by
      rw [List.take_succ]
      simp [List.getElem?_eq_getElem hl]
    rw [htake, List.map_append, ← hget]
    simp

/-- Claim C1: for 1 ≤ levels ≤ 8 and levels < len(name), get_path_in_cache
returns the cache directory followed, for each level i, by a slash and the
i-th character of the name, then a slash, the remainder of the name and the
suffix; the part after the cache directory consists of exactly levels
single-character directory components followed by the tail component; the
result ends with the suffix; and the concrete S1 instance holds. -/
theorem claim_C1 :
    (∀ (cache_dir : List Char) (levels : Nat) (name suffix : List Char),
      1 ≤ levels → levels ≤ 8 → levels < name.length → '/' ∉ name →
      get_path_in_cache cache_dir levels name suffix
          = cache_dir ++ (List.range levels).flatMap (fun i => ['/', name.getD i ' '])
            ++ ['/'] ++ name.drop levels ++ suffix
        ∧ splitSlash (levelDirs name levels ++ ['/'] ++ name.drop levels)
          = [] :: (((name.take levels).map fun c => [c]) ++ [name.drop levels])
        ∧ suffix <:+ get_path_in_cache cache_dir levels name suffix)
    ∧ get_path_in_cache "/c".data 2 "abcdef012".data ".o".data = "/c/a/b/cdef012.o".data := by
  constructor
  · intro cache_dir levels name suffix _ _ hlen hns
    refine ⟨by simp [get_path_in_cache, levelDirs_eq_flatMap], ?_, ?_⟩
    · have hdrop : '/' ∉ name.drop levels := fun hmem => hns (List.drop_subset _ _ hmem)
      have : levelDirs name levels ++ ['/'] ++ name.drop levels
          = levelDirs name levels ++ '/' :: name.drop levels := by simp
      rw [this, splitSlash_append, splitSlash_no_slash _ hdrop,
        splitSlash_levelDirs name levels (Nat.le_of_lt hlen) hns]
      simp
    · have : get_path_in_cache cache_dir levels name suffix
          = (cache_dir ++ levelDirs name levels ++ ['/'] ++ name.drop levels) ++ suffix := by
        simp [get_path_in_cache]
      rw [this]
      exact List.suffix_append _ _
  · decide

/-- Witness for claim C1 at the S1 instance. -/
theorem claim_C1_witness :
    get_path_in_cache "/c".data 2 "abcdef012".data ".o".data
        = "/c".data ++ (List.range 2).flatMap (fun i => ['/', "abcdef012".data.getD i ' '])
          ++ ['/'] ++ "abcdef012".data.drop 2 ++ ".o".data
      ∧ splitSlash (levelDirs "abcdef012".data 2 ++ ['/'] ++ "abcdef012".data.drop 2)
        = [] :: ((("abcdef012".data.take 2).map fun c => [c]) ++ ["abcdef012".data.drop 2])
      ∧ ".o".data <:+ get_path_in_cache "/c".data 2 "abcdef012".data ".o".data :=
  claim_C1.1 "/c".data 2 "abcdef012".data ".o".data (by decide) (by decide) (by decide)
    (by decide)

/-! ## Claims C2 and C10: materializer fallback policy -/

/-- Claim C2: the materializer follows the order clone, hard link, copy.
With file cloning enabled and succeeding it returns true having attempted
only the clone; otherwise with hard linking enabled and the link succeeding
it unlinks the destination, links, chmods the destination to 0444 and
returns true; in every remaining case it attempts the copy after whatever
failed before and returns the copy result. -/
theorem claim_C2 :
    (∀ e : InstallEnv, e.file_clone = true → e.clone_ok = true →
      clone_hard_link_or_copy_file e = (true, [.cloneFile true]))
    ∧ (∀ e : InstallEnv, ¬(e.file_clone = true ∧ e.clone_ok = true) →
        e.hard_link = true → e.link_ok = true →
        clone_hard_link_or_copy_file e
          = (true, (if e.file_clone then [FileOp.cloneFile false] else [])
              ++ [.unlinkDest, .linkFile true, .chmodDest 292 e.chmod_ok]))
    ∧ (∀ e : InstallEnv, ¬(e.file_clone = true ∧ e.clone_ok = true) →
        ¬(e.hard_link = true ∧ e.link_ok = true) →
        clone_hard_link_or_copy_file e
          = (e.copy_ok, (if e.file_clone then [FileOp.cloneFile false] else [])
              ++ (if e.hard_link then [FileOp.unlinkDest, .linkFile false] else [])
              ++ [.copyFile e.copy_ok])) := by
  refine ⟨?_, ?_, ?_⟩ <;>
    · intro e
      obtain ⟨fc, hl, co, lo, cho, cpo⟩ := e
      revert fc hl co lo cho cpo
      decide

/-- Witness for claim C2: a concrete environment for each of the three
branches (clone succeeds; clone fails and the hard link succeeds; both
disabled so the copy result is returned). -/
theorem claim_C2_witness :
    clone_hard_link_or_copy_file ⟨true, true, true, true, true, true⟩
        = (true, [.cloneFile true])
      ∧ clone_hard_link_or_copy_file ⟨true, true, false, true, true, true⟩
        = (true, [.cloneFile false, .unlinkDest, .linkFile true, .chmodDest 292 true])
      ∧ clone_hard_link_or_copy_file ⟨false, false, false, false, false, false⟩
        = (false, [.copyFile false]) :=
  ⟨claim_C2.1 ⟨true, true, true, true, true, true⟩ rfl rfl,
   claim_C2.2.1 ⟨true, true, false, true, true, true⟩ (by decide) rfl rfl,
   claim_C2.2.2 ⟨false, false, false, false, false, false⟩ (by decide) (by decide)⟩

/-- Claim C10: whenever the hard link is attempted and succeeds the call
returns true, with the chmod to 0444 recorded in the trace carrying whatever
outcome the chmod had; the return value does not depend on the chmod
outcome, so a failing chmod (a destination left writable) still reports
success. -/
theorem claim_C10 :
    ∀ e : InstallEnv, ¬(e.file_clone = true ∧ e.clone_ok = true) →
      e.hard_link = true → e.link_ok = true →
      (clone_hard_link_or_copy_file e).1 = true
        ∧ FileOp.chmodDest 292 e.chmod_ok ∈ (clone_hard_link_or_copy_file e).2 := by
  intro e
  obtain ⟨fc, hl, co, lo, cho, cpo⟩ := e
  revert fc hl co lo cho cpo
  decide

/-- Witness for claim C10 with a failing chmod: the call still returns true
and the trace records the failed chmod. -/
theorem claim_C10_witness :
    (clone_hard_link_or_copy_file ⟨false, true, false, true, false, true⟩).1 = true
      ∧ FileOp.chmodDest 292 false
        ∈ (clone_hard_link_or_copy_file ⟨false, true, false, true, false, true⟩).2 :=
  claim_C10 ⟨false, true, false, true, false, true⟩ (by decide) rfl rfl

/-! ## Claim C5: create_dir idempotence and race tolerance -/

/-- Claim C5: when stat reports an existing directory, create_dir returns
true immediately, sets no errno and attempts no mkdir; when the path is
absent, the parent chain was created and mkdir fails with EEXIST (a
concurrent creator won the race), the call still returns true; and when the
first existing entry along the ancestor chain is not a directory, the call
returns false with errno ENOTDIR and attempts no mkdir. -/
theorem claim_C5 :
    (∀ (fs : FSModel) (fuel : Nat) (d : List Char), fs.stat d = .dir →
      create_dir fs (fuel + 1) d = ⟨true, none, []⟩)
    ∧ (∀ (fs : FSModel) (fuel : Nat) (d : List Char), fs.stat d = .absent →
        fs.mkdir d = .eexist → (create_dir fs fuel (dir_name d)).ok = true →
        (create_dir fs (fuel + 1) d).ok = true)
    ∧ (∀ (fs : FSModel) (fuel : Nat) (d : List Char),
        firstExistingNonDir fs fuel d = true →
        create_dir fs fuel d = ⟨false, some ENOTDIR, []⟩) := by
  refine ⟨?_, ?_, ?_⟩
  · intro fs fuel d h
    simp [create_dir, h]
  · intro fs fuel d hstat hmk hparent
    simp [create_dir, hstat, hparent, hmk]
  · intro fs fuel
    induction fuel with
    | zero => intro d h; simp [firstExistingNonDir] at h
    | succ n ih =>
      intro d h
      cases hstat : fs.stat d with
      | dir => rw [firstExistingNonDir, hstat] at h; simp at h
      | nondir => simp [create_dir, hstat]
      | absent =>
        rw [firstExistingNonDir, hstat] at h
        have hrec := ih (dir_name d) h
        simp [create_dir, hstat, hrec]

/-- Witness for claim C5 on the demonstration filesystem: the root exists
(immediate success), a two-level chain is created with every mkdir losing
the race to a concurrent creator (still success), and a chain under an
existing non-directory fails with ENOTDIR. -/
theorem claim_C5_witness :
    create_dir demoFS (0 + 1) "/".data = ⟨true, none, []⟩
      ∧ (create_dir demoFS (2 + 1) "/a/b".data).ok = true
      ∧ create_dir demoFS 3 "/f/b".data = ⟨false, some ENOTDIR, []⟩ :=
  ⟨claim_C5.1 demoFS 0 "/".data (by decide),
   claim_C5.2.1 demoFS 2 "/a/b".data (by decide) (by decide) (by decide),
   claim_C5.2.2 demoFS 3 "/f/b".data (by decide)⟩

/-! ## Claim C7: fallocate and the file position -/

/-- Claim C7 against the code: the fallback branch of fallocate does ensure
the file is at least the requested size and returns 0, but it does not
preserve the file position: it saves the result of lseek(fd, 0, SEEK_END)
(the old end of file) where the current position should have been saved, so
after the call the position equals the old file size.  At size 10 and
position 3, requesting 5 bytes returns 0 and leaves the position at 10
instead of 3. -/
theorem claim_C7_position_moved :
    (∀ (f : FileState) (new_size : Nat),
      (fallocate f new_size).2 = 0 ∧ new_size ≤ (fallocate f new_size).1.size
        ∧ (fallocate f new_size).1.pos = f.size)
    ∧ (fallocate ⟨10, 3⟩ 5).2 = 0
    ∧ (fallocate ⟨10, 3⟩ 5).1.size = 10
    ∧ (fallocate ⟨10, 3⟩ 5).1.pos = 10
    ∧ ¬(fallocate ⟨10, 3⟩ 5).1.pos = 3 := by
  refine ⟨?_, by decide, by decide, by decide, by decide⟩
  intro f new_size
  by_cases h : new_size ≤ f.size
  · simp [fallocate, lseekEnd, lseekSet, writeZeros, h]
  · simp only [fallocate, lseekEnd, lseekSet, writeZeros, if_neg h]
    refine ⟨trivial, ?_, trivial⟩
    omega

/-! ## CSI scanner lemmas -/

theorem parseCSIbody_bounds {rest : List Char} {l : Nat} (h : parseCSIbody rest = some l) :
    3 ≤ l ∧ l ≤ rest.length + 2 := by
  simp only [parseCSIbody] at h
  split at h
  · rename_i hpos
    obtain ⟨hlen3, _⟩ := hpos
    simp only [Option.some.injEq] at h
    simp only [List.length_drop] at hlen3
    omega
  · exact absurd h (by simp)

theorem parseCSIlen_bounds {s : List Char} {l : Nat} (h : parseCSIlen s = some l) :
    3 ≤ l ∧ l ≤ s.length := by
  match s with
  | [] => simp [parseCSIlen] at h
  | [c1] => simp [parseCSIlen] at h
  | c1 :: c2 :: rest =>
    have h' : (if c1 = escChar ∧ c2 = '[' then parseCSIbody rest else none) = some l := h
    by_cases hok : c1 = escChar ∧ c2 = '['
    · rw [if_pos hok] at h'
      have := parseCSIbody_bounds h'
      simp only [List.length_cons]
      omega
    · rw [if_neg hok] at h'
      exact absurd h' (by simp)

theorem find_some_bounds : ∀ {s : List Char} {st l : Nat},
    find_first_ansi_csi_seq s = some (st, l) → 3 ≤ l ∧ st + l ≤ s.length := by
  intro s
  induction s with
  | nil => intro st l h; simp [find_first_ansi_csi_seq] at h
  | cons c cs ih =>
    intro st l h
    by_cases hc : c = escChar
    · rw [find_first_ansi_csi_seq, if_pos hc] at h
      obtain ⟨l', hp, heq⟩ := Option.map_eq_some'.mp h
      obtain ⟨h1, h2⟩ := Prod.mk.injEq .. ▸ heq
      obtain ⟨hb1, hb2⟩ := parseCSIlen_bounds hp
      subst h1 h2
      exact ⟨hb1, by simpa using hb2⟩
    · rw [find_first_ansi_csi_seq, if_neg hc] at h
      obtain ⟨⟨st', l'⟩, hfind, heq⟩ := Option.map_eq_some'.mp h
      obtain ⟨h1, h2⟩ := Prod.mk.injEq .. ▸ heq
      obtain ⟨hb1, hb2⟩ := ih hfind
      subst h1 h2
      simp only [List.length_cons]
      exact ⟨hb1, by omega⟩

theorem stripCsiFuel_nil (f : Nat) : stripCsiFuel f [] = [] := by
  cases f <;> simp [stripCsiFuel, find_first_ansi_csi_seq]

theorem stripCsiFuel_congr : ∀ (f g : Nat) (s : List Char),
    s.length ≤ f → s.length ≤ g → stripCsiFuel f s = stripCsiFuel g s := by
  intro f
  induction f with
  | zero =>
    intro g s hf _
    rw [List.length_eq_zero.mp (Nat.le_zero.mp hf)]
    rw [stripCsiFuel_nil, stripCsiFuel_nil]
  | succ n ih =>
    intro g s hf hg
    cases g with
    | zero =>
      rw [List.length_eq_zero.mp (Nat.le_zero.mp hg)]
      rw [stripCsiFuel_nil, stripCsiFuel_nil]
    | succ m =>
      cases hfind : find_first_ansi_csi_seq s with
      | none => simp [stripCsiFuel, hfind]
      | some r =>
        obtain ⟨st, l⟩ := r
        obtain ⟨hb1, hb2⟩ := find_some_bounds hfind
        have hdrop : (s.drop (st + l)).length ≤ n ∧ (s.drop (st + l)).length ≤ m := by
          simp only [List.length_drop]
          omega
        simp only [stripCsiFuel, hfind]
        rw [ih m (s.drop (st + l)) hdrop.1 hdrop.2]

theorem strip_eq_none {s : List Char} (h : find_first_ansi_csi_seq s = none) :
    strip_ansi_csi_seqs s = s := by
  rw [strip_ansi_csi_seqs]
  cases hl : s.length with
  | zero => rfl
  | succ n => simp [stripCsiFuel, h]

theorem strip_eq_some {s : List Char} {st l : Nat}
    (h : find_first_ansi_csi_seq s = some (st, l)) :
    strip_ansi_csi_seqs s = s.take st ++ strip_ansi_csi_seqs (s.drop (st + l)) := by
  obtain ⟨hb1, hb2⟩ := find_some_bounds h
  obtain ⟨k, hk⟩ : ∃ k, s.length = k + 1 := ⟨s.length - 1, by omega⟩
  rw [strip_ansi_csi_seqs, hk]
  simp only [stripCsiFuel, h]
  rw [strip_ansi_csi_seqs,
    stripCsiFuel_congr k (s.drop (st + l)).length (s.drop (st + l))
      (by simp only [List.length_drop]; omega) le_rfl]

theorem find_cons_ne {c : Char} {cs : List Char} (h : c ≠ escChar) :
    find_first_ansi_csi_seq (c :: cs)
      = (find_first_ansi_csi_seq cs).map (fun r => (r.1 + 1, r.2)) := by
  rw [find_first_ansi_csi_seq, if_neg h]

theorem find_append_none {p t : List Char} (hp : ∀ c ∈ p, c ≠ escChar)
    (h : find_first_ansi_csi_seq t = none) : find_first_ansi_csi_seq (p ++ t) = none := by
  induction p with
  | nil => simpa using h
  | cons c rest ih =>
    have hc : c ≠ escChar := hp c (List.mem_cons_self ..)
    rw [List.cons_append, find_cons_ne hc,
      ih (fun x hx => hp x (List.mem_cons_of_mem _ hx))]
    rfl

theorem find_take_no_esc : ∀ {s : List Char} {st l : Nat},
    find_first_ansi_csi_seq s = some (st, l) → ∀ c ∈ s.take st, c ≠ escChar := by
  intro s
  induction s with
  | nil => intro st l h; simp [find_first_ansi_csi_seq] at h
  | cons c cs ih =>
    intro st l h
    by_cases hc : c = escChar
    · rw [find_first_ansi_csi_seq, if_pos hc] at h
      obtain ⟨l', _, heq⟩ := Option.map_eq_some'.mp h
      obtain ⟨h1, _⟩ := Prod.mk.injEq .. ▸ heq
      subst h1
      simp
    · rw [find_cons_ne hc] at h
      obtain ⟨⟨st', l'⟩, hfind, heq⟩ := Option.map_eq_some'.mp h
      obtain ⟨h1, h2⟩ := Prod.mk.injEq .. ▸ heq
      subst h1 h2
      intro x hx
      rw [List.take_succ_cons] at hx
      rcases List.mem_cons.mp hx with hx | hx
      · exact hx ▸ hc
      · exact ih hfind x hx

theorem find_strip_none : ∀ (n : Nat) (s : List Char), s.length ≤ n →
    find_first_ansi_csi_seq (strip_ansi_csi_seqs s) = none := by
  intro n
  induction n with
  | zero =>
    intro s hs
    rw [List.length_eq_zero.mp (Nat.le_zero.mp hs)]
    rw [strip_eq_none (by rfl)]
    rfl
  | succ m ih =>
    intro s hs
    cases hfind : find_first_ansi_csi_seq s with
    | none => rwa [strip_eq_none hfind]
    | some r =>
      obtain ⟨st, l⟩ := r
      obtain ⟨hb1, hb2⟩ := find_some_bounds hfind
      rw [strip_eq_some hfind]
      exact find_append_none (find_take_no_esc hfind)
        (ih (s.drop (st + l)) (by simp only [List.length_drop]; omega))

theorem strip_length_le : ∀ (n : Nat) (s : List Char), s.length ≤ n →
    (strip_ansi_csi_seqs s).length ≤ s.length := by
  intro n
  induction n with
  | zero =>
    intro s hs
    rw [List.length_eq_zero.mp (Nat.le_zero.mp hs)]
    rw [strip_eq_none (by rfl)]
  | succ m ih =>
    intro s hs
    cases hfind : find_first_ansi_csi_seq s with
    | none => rw [strip_eq_none hfind]
    | some r =>
      obtain ⟨st, l⟩ := r
      obtain ⟨hb1, hb2⟩ := find_some_bounds hfind
      rw [strip_eq_some hfind]
      have hr := ih (s.drop (st + l)) (by simp only [List.length_drop]; omega)
      simp only [List.length_append, List.length_take, List.length_drop] at hr ⊢
      omega

/-! ## Claim C8: idempotence and non-lengthening -/

/-- Claim C8: strip_ansi_csi_seqs is idempotent and never lengthens its
input.  Idempotence holds because every removal is located at the first
escape byte: the output consists of escape-free chunks followed by a
remainder in which the scanner finds nothing, so a second scan finds
nothing at all. -/
theorem claim_C8 : ∀ s : List Char,
    strip_ansi_csi_seqs (strip_ansi_csi_seqs s) = strip_ansi_csi_seqs s
      ∧ (strip_ansi_csi_seqs s).length ≤ s.length := by
  intro s
  exact ⟨strip_eq_none (find_strip_none s.length s le_rfl),
    strip_length_le s.length s le_rfl⟩

/-! ## Claim C9: the scan stops at the first unparsable escape -/

theorem find_at_first_esc : ∀ {s : List Char}, escChar ∈ s →
    parseCSIlen (s.drop (s.findIdx (fun c => c = escChar))) = none →
    find_first_ansi_csi_seq s = none := by
  intro s
  induction s with
  | nil => intro h; simp at h
  | cons c cs ih =>
    intro hmem hparse
    by_cases hc : c = escChar
    · subst hc
      rw [List.findIdx_cons] at hparse
      simp at hparse
      rw [find_first_ansi_csi_seq, if_pos rfl, hparse]
      rfl
    · have hmem' : escChar ∈ cs := by
        rcases List.mem_cons.mp hmem with h | h
        · exact absurd h.symm hc
        · exact h
      rw [List.findIdx_cons] at hparse
      simp only [hc, decide_False, cond_false, List.drop_succ_cons] at hparse
      rw [find_cons_ne hc, ih hmem' hparse]
      rfl

/-- Claim C9: when the first escape byte of the input does not begin a
complete CSI sequence the scanner stops and the whole remainder is kept
verbatim, even when a complete sequence starts at a later escape byte; in
the concrete instance the input is a failed escape pair followed by a
complete color sequence, and the output is the entire input unchanged. -/
theorem claim_C9 :
    (∀ s : List Char, escChar ∈ s →
      parseCSIlen (s.drop (s.findIdx (fun c => c = escChar))) = none →
      strip_ansi_csi_seqs s = s)
    ∧ strip_ansi_csi_seqs "\x1bX\x1b[31m".data = "\x1bX\x1b[31m".data
    ∧ parseCSIlen "\x1b[31m".data = some ("\x1b[31m".data).length
    ∧ "\x1bX\x1b[31m".data = "\x1bX".data ++ "\x1b[31m".data := by
  refine ⟨?_, by decide, by decide, by decide⟩
  intro s hmem hparse
  exact strip_eq_none (find_at_first_esc hmem hparse)

/-- Witness for claim C9 at the concrete instance. -/
theorem claim_C9_witness :
    strip_ansi_csi_seqs "\x1bX\x1b[31m".data = "\x1bX\x1b[31m".data :=
  claim_C9.1 "\x1bX\x1b[31m".data (by decide) (by decide)

/-! ## Claim C3: what the sanitizer removes -/

theorem scanStripFuel_nil (f : Nat) : scanStripFuel f [] = [] := by
  cases f <;> rfl

theorem scanStripFuel_congr : ∀ (f g : Nat) (s : List Char),
    s.length ≤ f → s.length ≤ g → scanStripFuel f s = scanStripFuel g s := by
  intro f
  induction f with
  | zero =>
    intro g s hf _
    rw [List.length_eq_zero.mp (Nat.le_zero.mp hf)]
    rw [scanStripFuel_nil, scanStripFuel_nil]
  | succ n ih =>
    intro g s hf hg
    cases g with
    | zero =>
      rw [List.length_eq_zero.mp (Nat.le_zero.mp hg)]
      rw [scanStripFuel_nil, scanStripFuel_nil]
    | succ m =>
      cases s with
      | nil => rfl
      | cons c cs =>
        by_cases hc : c = escChar
        · subst hc
          cases hparse : parseCSIlen (escChar :: cs) with
          | none => simp [scanStripFuel, hparse]
          | some l =>
            obtain ⟨hb1, hb2⟩ := parseCSIlen_bounds hparse
            simp only [scanStripFuel, if_pos rfl, hparse]
            exact ih m ((escChar :: cs).drop l)
              (by simp only [List.length_drop, List.length_cons] at hb2 hf ⊢; omega)
              (by simp only [List.length_drop, List.length_cons] at hb2 hg ⊢; omega)
        · simp only [scanStripFuel, if_neg hc]
          rw [ih m cs (by simpa using hf) (by simpa using hg)]

theorem scanStrip_cons_esc_some {cs : List Char} {l : Nat}
    (h : parseCSIlen (escChar :: cs) = some l) :
    scanStrip (escChar :: cs) = scanStrip ((escChar :: cs).drop l) := by
  obtain ⟨hb1, hb2⟩ := parseCSIlen_bounds h
  rw [scanStrip, scanStrip]
  simp only [List.length_cons, scanStripFuel, if_pos rfl, h]
  exact scanStripFuel_congr cs.length ((escChar :: cs).drop l).length _
    (by simp only [List.length_drop, List.length_cons] at hb2 ⊢; omega) le_rfl

theorem scanStrip_cons_esc_none {cs : List Char}
    (h : parseCSIlen (escChar :: cs) = none) :
    scanStrip (escChar :: cs) = escChar :: cs := by
  rw [scanStrip]
  simp [scanStripFuel, h]

theorem scanStrip_cons_ne {c : Char} {cs : List Char} (h : c ≠ escChar) :
    scanStrip (c :: cs) = c :: scanStrip cs := by
  rw [scanStrip, scanStrip]
  simp [scanStripFuel, h]

theorem scanStrip_of_find_none : ∀ {s : List Char},
    find_first_ansi_csi_seq s = none → scanStrip s = s := by
  intro s
  induction s with
  | nil => intro _; rfl
  | cons c cs ih =>
    intro h
    by_cases hc : c = escChar
    · rw [find_first_ansi_csi_seq, if_pos hc] at h
      subst hc
      exact scanStrip_cons_esc_none (Option.map_eq_none'.mp h)
    · rw [find_cons_ne hc] at h
      rw [scanStrip_cons_ne hc, ih (Option.map_eq_none'.mp h)]

theorem scanStrip_of_find_some : ∀ {s : List Char} {st l : Nat},
    find_first_ansi_csi_seq s = some (st, l) →
    scanStrip s = s.take st ++ scanStrip (s.drop (st + l)) := by
  intro s
  induction s with
  | nil => intro st l h; simp [find_first_ansi_csi_seq] at h
  | cons c cs ih =>
    intro st l h
    by_cases hc : c = escChar
    · rw [find_first_ansi_csi_seq, if_pos hc] at h
      obtain ⟨l', hp, heq⟩ := Option.map_eq_some'.mp h
      obtain ⟨h1, h2⟩ := Prod.mk.injEq .. ▸ heq
      subst hc
      subst h1 h2
      rw [scanStrip_cons_esc_some hp]
      simp
    · rw [find_cons_ne hc] at h
      obtain ⟨⟨st', l'⟩, hfind, heq⟩ := Option.map_eq_some'.mp h
      obtain ⟨h1, h2⟩ := Prod.mk.injEq .. ▸ heq
      subst h1 h2
      rw [scanStrip_cons_ne hc, ih hfind]
      simp only [List.take_succ_cons, List.cons_append, List.cons.injEq, true_and]
      have : st' + 1 + l' = (st' + l') + 1 := by omega
      rw [this, List.drop_succ_cons]

theorem strip_eq_scanStrip : ∀ (n : Nat) (s : List Char), s.length ≤ n →
    strip_ansi_csi_seqs s = scanStrip s := by
  intro n
  induction n with
  | zero =>
    intro s hs
    rw [List.length_eq_zero.mp (Nat.le_zero.mp hs)]
    rw [strip_eq_none (by rfl)]
    rfl
  | succ m ih =>
    intro s hs
    cases hfind : find_first_ansi_csi_seq s with
    | none => rw [strip_eq_none hfind, scanStrip_of_find_none hfind]
    | some r =>
      obtain ⟨st, l⟩ := r
      obtain ⟨hb1, hb2⟩ := find_some_bounds hfind
      rw [strip_eq_some hfind, scanStrip_of_find_some hfind,
        ih (s.drop (st + l)) (by simp only [List.length_drop]; omega)]

/-- Counterexample to claim C3 as stated: the input holds the substring
ESC [ 3 1 m, a complete match of the CSI grammar, yet the output keeps it
verbatim (the scan stopped at the earlier unparsable escape), and the output
is not the input with that match removed. -/
theorem claim_C3_counterexample :
    parseCSIlen "\x1b[31m".data = some ("\x1b[31m".data).length
      ∧ strip_ansi_csi_seqs "\x1bX\x1b[31m".data = "\x1bX".data ++ "\x1b[31m".data
      ∧ ¬strip_ansi_csi_seqs "\x1bX\x1b[31m".data = "\x1bX".data := by
  refine ⟨by decide, by decide, by decide⟩

/-- Amended claim C3: strip_ansi_csi_seqs removes exactly the CSI sequences
found by a single left-to-right scan: at each escape byte that begins a
complete sequence of the grammar ESC [ params* intermediates* (K|m) the
sequence is dropped and scanning resumes after it; at the first escape byte
that does not begin a complete sequence the scan stops and the entire
remainder (even later complete sequences) is kept verbatim; all other bytes
are kept.  The S7 instance holds. -/
theorem claim_C3_amended :
    (∀ s : List Char, strip_ansi_csi_seqs s = scanStrip s)
    ∧ strip_ansi_csi_seqs "\x1b[31mred\x1b[0m done\x1b[K".data = "red done".data := by
  exact ⟨fun s => strip_eq_scanStrip s.length s le_rfl, by decide⟩

/-! ## Claim C6: common_dir_prefix_length -/

theorem firstDiff_le_left : ∀ (a b : List Char), firstDiff a b ≤ a.length := by
  intro a
  induction a with
  | nil => intro b; cases b <;> simp [firstDiff]
  | cons x xs ih =>
    intro b
    cases b with
    | nil => simp [firstDiff]
    | cons y ys =>
      rw [firstDiff]
      split
      · simpa using ih ys
      · simp

theorem firstDiff_le_right : ∀ (a b : List Char), firstDiff a b ≤ b.length := by
  intro a
  induction a with
  | nil => intro b; cases b <;> simp [firstDiff]
  | cons x xs ih =>
    intro b
    cases b with
    | nil => simp [firstDiff]
    | cons y ys =>
      rw [firstDiff]
      split
      · simpa using ih ys
      · simp

theorem firstDiff_agree : ∀ (a b : List Char) (j : Nat), j < firstDiff a b →
    a.getD j ' ' = b.getD j ' ' := by
  intro a
  induction a with
  | nil => intro b j h; cases b <;> simp [firstDiff] at h
  | cons x xs ih =>
    intro b j h
    cases b with
    | nil => simp [firstDiff] at h
    | cons y ys =>
      rw [firstDiff] at h
      split at h
      · rename_i hxy
        cases j with
        | zero => simpa using hxy
        | succ k =>
          simp only [List.getD_cons_succ]
          exact ih ys k (by omega)
      · omega

theorem firstDiff_ne : ∀ (a b : List Char), firstDiff a b < a.length →
    firstDiff a b < b.length → a.getD (firstDiff a b) ' ' ≠ b.getD (firstDiff a b) ' ' := by
  intro a
  induction a with
  | nil => intro b h _; simp at h
  | cons x xs ih =>
    intro b ha hb
    cases b with
    | nil => simp at hb
    | cons y ys =>
      rw [firstDiff] at ha hb ⊢
      split at ha
      · rename_i hxy
        rw [if_pos hxy] at hb ⊢
        simp only [List.getD_cons_succ]
        exact ih ys (by simpa using ha) (by simpa using hb)
      · rename_i hxy
        rw [if_neg hxy]
        simpa using hxy

theorem firstDiff_append : ∀ (a e : List Char), firstDiff a (a ++ e) = a.length := by
  intro a e
  induction a with
  | nil => cases e <;> simp [firstDiff]
  | cons x xs ih => simp [firstDiff, ih]

theorem getD_append_lt {a e : List Char} {j : Nat} (h : j < a.length) :
    (a ++ e).getD j ' ' = a.getD j ' ' := by
  rw [List.getD_eq_getElem?_getD, List.getD_eq_getElem?_getD,
    List.getElem?_append_left h]

theorem getD_append_head {a e : List Char} (h : e ≠ []) :
    (a ++ e).getD a.length ' ' = e.headD ' ' := by
  cases e with
  | nil => exact absurd rfl h
  | cons x xs =>
    rw [List.getD_eq_getElem?_getD, List.getElem?_append_right le_rfl]
    simp

theorem backtrack_eq_findGreatest (dir path : List Char) :
    ∀ m : Nat, m < firstDiff dir path → m < dir.length → m < path.length →
      backtrackSlash dir path m = Nat.findGreatest (boundary_at dir path) m := by
  intro m
  induction m with
  | zero => intro _ _ _; rfl
  | succ k ih =>
    intro hfd hdl hpl
    have hagree : dir.getD (k + 1) ' ' = path.getD (k + 1) ' ' :=
      firstDiff_agree dir path (k + 1) hfd
    rw [backtrackSlash, Nat.findGreatest_succ]
    by_cases hslash : dir.getD (k + 1) ' ' = '/'
    · rw [if_pos (Or.inl hslash), if_pos ⟨Or.inr hslash, Or.inr (hagree ▸ hslash)⟩]
    · have hps : ¬path.getD (k + 1) ' ' = '/' := hagree ▸ hslash
      have hnb : ¬boundary_at dir path (k + 1) := by
        intro hb
        rcases hb.1 with h1 | h1
        · omega
        · exact hslash h1
      rw [if_neg (by tauto), if_neg hnb]
      exact ih (by omega) (by omega) (by omega)

theorem absolute_shape {p : List Char} (h : is_absolute_path p = true) :
    ∃ t, p = '/' :: t := by
  cases p with
  | nil => simp [is_absolute_path] at h
  | cons c t =>
    refine ⟨t, ?_⟩
    have : c = '/' := by simpa [is_absolute_path] using h
    rw [this]

theorem common_eq_spec (dir path : List Char) (hd : is_absolute_path dir = true)
    (hp : is_absolute_path path = true) :
    common_dir_prefix_length dir path = spec_common_len dir path := by
  obtain ⟨dt, hdt⟩ := absolute_shape hd
  obtain ⟨pt, hpt⟩ := absolute_shape hp
  by_cases hguard : dir = [] ∨ path = [] ∨ dir = ['/'] ∨ path = ['/']
  · rw [common_dir_prefix_length, if_pos hguard, spec_common_len, if_pos hguard]
  · rw [common_dir_prefix_length, if_neg hguard, spec_common_len, if_neg hguard]
    have hd1 : 1 ≤ firstDiff dir path := by
      subst hdt hpt
      rw [firstDiff, if_pos rfl]
      omega
    have hdle : firstDiff dir path ≤ dir.length := firstDiff_le_left dir path
    have hple : firstDiff dir path ≤ path.length := firstDiff_le_right dir path
    by_cases h1 : firstDiff dir path = dir.length ∧ firstDiff dir path = path.length
    · rw [if_pos h1, Nat.findGreatest_eq ⟨Or.inl h1.1, Or.inl h1.2⟩]
    · rw [if_neg h1]
      by_cases h2 : firstDiff dir path = dir.length
          ∧ path.getD (firstDiff dir path) ' ' = '/'
      · rw [if_pos h2, Nat.findGreatest_eq ⟨Or.inl h2.1, Or.inr h2.2⟩]
      · rw [if_neg h2]
        by_cases h3 : firstDiff dir path = path.length
            ∧ dir.getD (firstDiff dir path) ' ' = '/'
        · rw [if_pos h3, Nat.findGreatest_eq ⟨Or.inr h3.2, Or.inl h3.1⟩]
        · rw [if_neg h3]
          have hnb : ¬boundary_at dir path (firstDiff dir path) := by
            intro hb
            obtain ⟨hb1, hb2⟩ := hb
            rcases hb1 with hb1 | hb1
            · rcases hb2 with hb2 | hb2
              · exact h1 ⟨hb1, hb2⟩
              · exact h2 ⟨hb1, hb2⟩
            · have hdlt : firstDiff dir path < dir.length := by
                rcases Nat.lt_or_ge (firstDiff dir path) dir.length with h | h
                · exact h
                · have : dir.getD (firstDiff dir path) ' ' = ' ' :=
                    List.getD_eq_default _ _ (by omega)
                  rw [this] at hb1
                  exact absurd hb1 (by decide)
              rcases hb2 with hb2 | hb2
              · exact h3 ⟨hb2, hb1⟩
              · have hplt : firstDiff dir path < path.length := by
                  rcases Nat.lt_or_ge (firstDiff dir path) path.length with h | h
                  · exact h
                  · have : path.getD (firstDiff dir path) ' ' = ' ' :=
                      List.getD_eq_default _ _ (by omega)
                    rw [this] at hb2
                    exact absurd hb2 (by decide)
                exact firstDiff_ne dir path hdlt hplt (hb1.trans hb2.symm)
          obtain ⟨k, hk⟩ : ∃ k, firstDiff dir path = k + 1 :=
            ⟨firstDiff dir path - 1, by omega⟩
          rw [hk, Nat.findGreatest_succ, if_neg (hk ▸ hnb)]
          have : k + 1 - 1 = k := by omega
          rw [this]
          exact backtrack_eq_findGreatest dir path k (by omega) (by omega) (by omega)

/-- Claim C6: common_dir_prefix_length of two absolute paths is the length
of the longest common prefix ending on a directory boundary (the greatest
position within the agreement length at which each side either ends or
holds a slash), it is zero when either argument is empty or the root, and
the two S4 instances hold. -/
theorem claim_C6 :
    (∀ dir path : List Char, is_absolute_path dir = true → is_absolute_path path = true →
      common_dir_prefix_length dir path = spec_common_len dir path)
    ∧ (∀ p : List Char, common_dir_prefix_length [] p = 0
        ∧ common_dir_prefix_length p [] = 0
        ∧ common_dir_prefix_length ['/'] p = 0
        ∧ common_dir_prefix_length p ['/'] = 0)
    ∧ common_dir_prefix_length "/usr/local".data "/usr/local/bin".data = 10
    ∧ common_dir_prefix_length "/usr/locale".data "/usr/local".data = 4 := by
  refine ⟨common_eq_spec, ?_, by decide, by decide⟩
  intro p
  refine ⟨?_, ?_, ?_, ?_⟩ <;> simp [common_dir_prefix_length]

/-- Witness for claim C6 at the first S4 instance. -/
theorem claim_C6_witness :
    common_dir_prefix_length "/usr/local".data "/usr/local/bin".data
      = spec_common_len "/usr/local".data "/usr/local/bin".data :=
  claim_C6.1 "/usr/local".data "/usr/local/bin".data (by decide) (by decide)

/-! ## Normalization as a component stack (infrastructure for claim C4) -/

theorem dropWhile_append_all {p : Char → Bool} {a : List Char} (b : List Char)
    (ha : ∀ x ∈ a, p x = true) : (a ++ b).dropWhile p = b.dropWhile p := by
  induction a with
  | nil => rfl
  | cons x xs ih =>
    rw [List.cons_append, List.dropWhile_cons, if_pos (ha x (List.mem_cons_self ..))]
    exact ih fun y hy => ha y (List.mem_cons_of_mem _ hy)

theorem takeWhile_append_all {p : Char → Bool} {a : List Char} (b : List Char)
    (ha : ∀ x ∈ a, p x = true) : (a ++ b).takeWhile p = a ++ b.takeWhile p := by
  induction a with
  | nil => rfl
  | cons x xs ih =>
    rw [List.cons_append, List.takeWhile_cons, if_pos (ha x (List.mem_cons_self ..)),
      ih fun y hy => ha y (List.mem_cons_of_mem _ hy)]
    rfl

theorem dropWhile_cons_neg {p : Char → Bool} {c : Char} {l : List Char} (h : ¬p c = true) :
    (c :: l).dropWhile p = c :: l := by
  rw [List.dropWhile_cons, if_neg h]

theorem reprStack_concat (ys : List (List Char)) (L : List Char) :
    reprStack (ys ++ [L]) = reprStack ys ++ L ++ ['/'] := by
  simp [reprStack]

theorem reprStack_ends (st : List (List Char)) : ∃ t, reprStack st = t ++ ['/'] := by
  induction st using List.reverseRecOn with
  | nil => exact ⟨[], rfl⟩
  | append_singleton ys L _ =>
    exact ⟨reprStack ys ++ L, by simp [reprStack_concat]⟩

theorem reprStack_length_pos (st : List (List Char)) (h : st ≠ []) :
    1 < (reprStack st).length := by
  obtain ⟨ys, L, rfl⟩ : ∃ ys L, st = ys ++ [L] := by
    rcases List.eq_nil_or_concat st with h' | ⟨ys, L, h'⟩
    · exact absurd h' h
    · exact ⟨ys, L, by rw [h', List.concat_eq_append]⟩
  rw [reprStack_concat]
  have h1 : 1 ≤ (reprStack ys).length := by
    rw [reprStack]
    simp
  simp only [List.length_append, List.length_cons]
  omega

theorem eraseLastComponent_repr (st : List (List Char)) (hne : st ≠ [])
    (hgood : ∀ x ∈ st, x ≠ [] ∧ '/' ∉ x) :
    eraseLastComponent (reprStack st) = reprStack st.dropLast := by
  obtain ⟨ys, L, rfl⟩ : ∃ ys L, st = ys ++ [L] := by
    rcases List.eq_nil_or_concat st with h' | ⟨ys, L, h'⟩
    · exact absurd h' hne
    · exact ⟨ys, L, by rw [h', List.concat_eq_append]⟩
  have hL : L ≠ [] ∧ '/' ∉ L := hgood L (by simp)
  rw [List.dropLast_concat, reprStack_concat, eraseLastComponent]
  have h1 : (reprStack ys ++ L ++ ['/']).dropLast = reprStack ys ++ L :=
    List.dropLast_concat ..
  rw [h1, List.reverse_append]
  have h2 : (L.reverse ++ (reprStack ys).reverse).dropWhile (fun c => c ≠ '/')
      = ((reprStack ys).reverse).dropWhile (fun c => c ≠ '/') := by
    refine dropWhile_append_all _ fun x hx => ?_
    have : x ∈ L := List.mem_reverse.mp hx
    simp only [ne_eq, decide_eq_true_eq]
    intro hcontra
    exact hL.2 (hcontra ▸ this)
  rw [h2]
  obtain ⟨t, ht⟩ := reprStack_ends ys
  rw [ht, List.reverse_append]
  have h3 : (['/'] : List Char).reverse = ['/'] := rfl
  rw [h3, List.singleton_append, dropWhile_cons_neg (by simp), List.reverse_cons,
    List.reverse_reverse]

theorem normStep_of_empty (st : List (List Char)) : normStep st [] = st := by
  simp [normStep]

theorem normSegs_repr : ∀ (parts : List (List Char)) (st : List (List Char)),
    (∀ x ∈ st, x ≠ [] ∧ '/' ∉ x) → (∀ part ∈ parts, '/' ∉ part) →
    normSegs (reprStack st) parts = reprStack (parts.foldl normStep st)
      ∧ ∀ x ∈ parts.foldl normStep st, x ≠ [] ∧ '/' ∉ x := by
  intro parts
  induction parts with
  | nil => intro st hst _; exact ⟨rfl, hst⟩
  | cons part rest ih =>
    intro st hst hparts
    have hrest : ∀ p ∈ rest, '/' ∉ p := fun p hp => hparts p (List.mem_cons_of_mem _ hp)
    have hpart : '/' ∉ part := hparts part (List.mem_cons_self ..)
    by_cases hdd : part = ['.', '.']
    · subst hdd
      rw [List.foldl_cons]
      have hstep : normStep st ['.', '.'] = st.dropLast := by simp [normStep]
      rw [hstep]
      have hgood' : ∀ x ∈ st.dropLast, x ≠ [] ∧ '/' ∉ x :=
        fun x hx => hst x (List.dropLast_subset _ hx)
      by_cases hne : st = []
      · subst hne
        have : normSegs (reprStack []) (['.', '.'] :: rest) = normSegs (reprStack []) rest := by
          simp [normSegs, reprStack]
        rw [this]
        exact ih [] (by simp) hrest
      · have : normSegs (reprStack st) (['.', '.'] :: rest)
            = normSegs (eraseLastComponent (reprStack st)) rest := by
          simp [normSegs, reprStack_length_pos st hne]
        rw [this, eraseLastComponent_repr st hne hst]
        exact ih st.dropLast hgood' hrest
    · by_cases hdot : part = ['.']
      · subst hdot
        rw [List.foldl_cons]
        have hstep : normStep st ['.'] = st := by simp [normStep]
        rw [hstep]
        have : normSegs (reprStack st) (['.'] :: rest) = normSegs (reprStack st) rest := by
          simp [normSegs]
        rw [this]
        exact ih st hst hrest
      · by_cases hnil : part = []
        · subst hnil
          rw [List.foldl_cons, normStep_of_empty]
          obtain ⟨t, ht⟩ := reprStack_ends st
          have hlast : (reprStack st ++ ([] : List Char)).getLast? = some '/' := by
            rw [List.append_nil, ht]
            simp
          have : normSegs (reprStack st) ([] :: rest) = normSegs (reprStack st) rest := by
            rw [normSegs]
            rw [if_neg (by simp), if_neg (by simp)]
            simp only [List.append_nil] at hlast ⊢
            rw [if_pos hlast]
          rw [this]
          exact ih st hst hrest
        · rw [List.foldl_cons]
          have hstep : normStep st part = st ++ [part] := by
            rw [normStep, if_neg hdd, if_neg (not_or.mpr ⟨hdot, hnil⟩)]
          rw [hstep]
          have hgood' : ∀ x ∈ st ++ [part], x ≠ [] ∧ '/' ∉ x := by
            intro x hx
            rcases List.mem_append.mp hx with hx | hx
            · exact hst x hx
            · rw [List.mem_singleton.mp hx]
              exact ⟨hnil, hpart⟩
          have hlast : (reprStack st ++ part).getLast? ≠ some '/' := by
            cases part with
            | nil => exact absurd rfl hnil
            | cons c cs =>
              rw [List.getLast?_append_of_ne_nil _ (by simp)]
              have : (c :: cs).getLast (by simp) ∈ c :: cs := List.getLast_mem _
              rw [List.getLast?_eq_getLast _ (by simp)]
              intro hcontra
              have heq : (c :: cs).getLast (by simp) = '/' := by
                simpa using hcontra
              exact hpart (heq ▸ this)
          have : normSegs (reprStack st) (part :: rest)
              = normSegs (reprStack st ++ part ++ ['/']) rest := by
            rw [normSegs, if_neg hdd, if_neg hdot, if_neg hlast]
          rw [this, ← reprStack_concat]
          exact ih (st ++ [part]) hgood' hrest

theorem splitSlash_parts_no_slash : ∀ (q : List Char), ∀ part ∈ splitSlash q, '/' ∉ part := by
  intro q
  induction q with
  | nil => intro part hp; rw [List.mem_singleton.mp hp]; simp
  | cons c rest ih =>
    intro part hp
    by_cases hc : c = '/'
    · rw [splitSlash, if_pos hc] at hp
      rcases List.mem_cons.mp hp with h | h
      · rw [h]; simp
      · exact ih part h
    · rw [splitSlash, if_neg hc] at hp
      cases hs : splitSlash rest with
      | nil => exact absurd hs (splitSlash_ne_nil rest)
      | cons a t =>
        rw [hs, List.modifyHead] at hp
        rcases List.mem_cons.mp hp with h | h
        · subst h
          intro hmem
          rcases List.mem_cons.mp hmem with h | h
          · exact hc h.symm
          · exact ih a (hs ▸ List.mem_cons_self ..) h
        · exact ih part (hs ▸ List.mem_cons_of_mem _ h)

theorem normalize_eq_render (p : List Char) (hp : is_absolute_path p = true) :
    normalize_absolute_path p = renderStack (stackOf p) := by
  rw [normalize_absolute_path, if_pos hp, renderStack, stackOf]
  have hrepr : reprStack [] = ['/'] := rfl
  obtain ⟨heq, _⟩ := normSegs_repr (splitSlash (p.drop 1)) [] (by simp)
    (splitSlash_parts_no_slash (p.drop 1))
  rw [← hrepr, heq]

theorem splitSlash_replicate : ∀ k : Nat,
    splitSlash (List.replicate k '/') = List.replicate (k + 1) [] := by
  intro k
  induction k with
  | zero => rfl
  | succ n ih =>
    rw [List.replicate_succ, splitSlash, if_pos rfl, ih]
    rfl

theorem foldl_normStep_replicate_nil (st : List (List Char)) (n : Nat) :
    (List.replicate n ([] : List Char)).foldl normStep st = st := by
  induction n generalizing st with
  | zero => rfl
  | succ m ih => rw [List.replicate_succ, List.foldl_cons, normStep_of_empty, ih]

theorem foldl_splitSlash_append (st : List (List Char)) (x y : List Char) :
    (splitSlash (x ++ '/' :: y)).foldl normStep st
      = (splitSlash y).foldl normStep ((splitSlash x).foldl normStep st) := by
  rw [splitSlash_append, List.foldl_append]

theorem dropTrailing_decomp (y : List Char) :
    y = dropTrailingSlashes y
      ++ List.replicate ((y.reverse.takeWhile (fun c => c = '/')).length) '/' := by
  have hall : ∀ c ∈ y.reverse.takeWhile (fun c => c = '/'), c = '/' := by
    intro c hc
    simpa using List.mem_takeWhile_imp hc
  have hrep : y.reverse.takeWhile (fun c => c = '/')
      = List.replicate ((y.reverse.takeWhile (fun c => c = '/')).length) '/' :=
    List.eq_replicate_of_mem hall
  calc y = y.reverse.reverse := (List.reverse_reverse y).symm
    _ = (y.reverse.takeWhile (fun c => c = '/') ++ y.reverse.dropWhile (fun c => c = '/')).reverse
        := by rw [List.takeWhile_append_dropWhile]
    _ = dropTrailingSlashes y
        ++ List.replicate ((y.reverse.takeWhile (fun c => c = '/')).length) '/' := by
      rw [List.reverse_append, dropTrailingSlashes]
      rw [show (y.reverse.takeWhile (fun c => c = '/')).reverse
          = List.replicate ((y.reverse.takeWhile (fun c => c = '/')).length) '/' from by
        rw [← List.reverse_replicate, ← hrep]]

theorem foldl_splitSlash_rep_slashes (st : List (List Char)) (t : List Char) (k : Nat) :
    (splitSlash (t ++ List.replicate k '/')).foldl normStep st
      = (splitSlash t).foldl normStep st := by
  cases k with
  | zero => rw [List.replicate_zero, List.append_nil]
  | succ n =>
    rw [List.replicate_succ, foldl_splitSlash_append, splitSlash_replicate,
      foldl_normStep_replicate_nil]

theorem foldl_splitSlash_dropTrailing (st : List (List Char)) (y : List Char) :
    (splitSlash (dropTrailingSlashes y)).foldl normStep st
      = (splitSlash y).foldl normStep st := by
  conv_rhs => rw [dropTrailing_decomp y]
  rw [foldl_splitSlash_rep_slashes]

theorem dropTrailing_ne_nil {y : List Char} (h : ∃ c ∈ y, c ≠ '/') :
    dropTrailingSlashes y ≠ [] := by
  obtain ⟨c, hc, hne⟩ := h
  intro hcontra
  rw [dropTrailingSlashes] at hcontra
  have h1 : y.reverse.dropWhile (fun c => c = '/') = [] := by
    have := congrArg List.reverse hcontra
    simpa using this
  have h2 := List.dropWhile_eq_nil_iff.mp h1 c (List.mem_reverse.mpr hc)
  simp at h2
  exact hne h2

theorem dropWhile_append_of_ne_nil {p : Char → Bool} {a : List Char} (b : List Char)
    (h : a.dropWhile p ≠ []) : (a ++ b).dropWhile p = a.dropWhile p ++ b := by
  induction a with
  | nil => exact absurd rfl h
  | cons c cs ih =>
    by_cases hc : p c = true
    · rw [List.cons_append, List.dropWhile_cons, if_pos hc, List.dropWhile_cons, if_pos hc]
      rw [List.dropWhile_cons, if_pos hc] at h
      exact ih h
    · rw [List.cons_append, List.dropWhile_cons, if_neg hc, List.dropWhile_cons, if_neg hc]
      rfl

theorem dropTrailing_append_of_ne_nil (x : List Char) {y : List Char}
    (h : dropTrailingSlashes y ≠ []) :
    dropTrailingSlashes (x ++ y) = x ++ dropTrailingSlashes y := by
  rw [dropTrailingSlashes, dropTrailingSlashes] at *
  rw [List.reverse_append]
  have hy : y.reverse.dropWhile (fun c => c = '/') ≠ [] := by
    intro hcontra
    rw [hcontra] at h
    exact h rfl
  rw [dropWhile_append_of_ne_nil _ hy, List.reverse_append, List.reverse_reverse]

theorem addDotDots_no_slash (r : List Char) {l : List Char} (h : ∀ c ∈ l, c ≠ '/') :
    addDotDots r l = r := by
  induction l generalizing r with
  | nil => rfl
  | cons c cs ih =>
    rw [addDotDots, if_neg (h c (List.mem_cons_self ..))]
    exact ih r fun x hx => h x (List.mem_cons_of_mem _ hx)

theorem afterLastSlash_concat (A : List Char) {L : List Char} (h : '/' ∉ L) :
    afterLastSlash (A ++ '/' :: L) = L := by
  rw [afterLastSlash, List.reverse_append, List.reverse_cons]
  have hall : ∀ x ∈ L.reverse, (fun c => decide (c ≠ '/')) x = true := by
    intro x hx
    have : x ∈ L := List.mem_reverse.mp hx
    simp only [ne_eq, decide_eq_true_eq]
    intro hcontra
    exact h (hcontra ▸ this)
  rw [List.append_assoc, takeWhile_append_all _ hall, List.singleton_append,
    List.takeWhile_cons, if_neg (by simp), List.append_nil, List.reverse_reverse]

theorem take_slash_drop {p : List Char} {c : Nat} (hc : c < p.length)
    (hs : p.getD c ' ' = '/') : p.take c ++ '/' :: p.drop (c + 1) = p := by
  have h1 : p.drop c = p[c] :: p.drop (c + 1) := List.drop_eq_getElem_cons hc
  have h2 : p[c] = '/' := by rw [← List.getD_eq_getElem p ' ' hc, hs]
  rw [← h2, ← h1, List.take_append_drop]

theorem no_slash_drop {p : List Char} {c : Nat}
    (hmax : ∀ j, c < j → j < p.length → p.getD j ' ' ≠ '/') : '/' ∉ p.drop (c + 1) := by
  intro hmem
  obtain ⟨i, hi, hEl⟩ := List.mem_iff_getElem.mp hmem
  have hlen : c + 1 + i < p.length := by
    have := hi
    simp only [List.length_drop] at this
    omega
  have : p.getD (c + 1 + i) ' ' = '/' := by
    rw [List.getD_eq_getElem p ' ' hlen, ← hEl]
    rw [List.getElem_drop']
  exact hmax (c + 1 + i) (by omega) hlen this

theorem foldl_pop_core (S : List (List Char)) (L e : List Char)
    (hL : '/' ∉ L) (hLne : L ≠ []) (hdot : L ≠ ['.']) (hdd : L ≠ ['.', '.']) :
    (splitSlash (L ++ '/' :: (['.', '.'] ++ '/' :: dropTrailingSlashes (L ++ e)))).foldl
        normStep S
      = (splitSlash (L ++ e)).foldl normStep S := by
  rw [foldl_splitSlash_append, splitSlash_no_slash L hL]
  have hstep : (([L] : List (List Char)).foldl normStep S) = S ++ [L] := by
    rw [List.foldl_cons, List.foldl_nil, normStep, if_neg hdd,
      if_neg (not_or.mpr ⟨hdot, hLne⟩)]
  rw [hstep, foldl_splitSlash_append, splitSlash_no_slash ['.', '.'] (by decide)]
  have hpop : (([['.', '.']] : List (List Char)).foldl normStep (S ++ [L])) = S := by
    rw [List.foldl_cons, List.foldl_nil, normStep, if_pos rfl, List.dropLast_concat]
  rw [hpop, foldl_splitSlash_dropTrailing]

theorem common_self (dir : List Char) (hd : is_absolute_path dir = true)
    (hne : dir ≠ ['/']) : common_dir_prefix_length dir dir = dir.length := by
  obtain ⟨dt, rfl⟩ := absolute_shape hd
  have hguard : ¬(('/' :: dt) = [] ∨ ('/' :: dt) = [] ∨ ('/' :: dt) = ['/']
      ∨ ('/' :: dt) = ['/']) := by
    simp only [not_or]
    exact ⟨by simp, by simp, hne, hne⟩
  have hfd : firstDiff ('/' :: dt) ('/' :: dt) = ('/' :: dt).length := by
    have := firstDiff_append ('/' :: dt) []
    rwa [List.append_nil] at this
  rw [common_dir_prefix_length, if_neg hguard, hfd, if_pos ⟨rfl, rfl⟩]

theorem common_append_slash (dir e' : List Char) (hd : is_absolute_path dir = true)
    (hne : dir ≠ ['/']) :
    common_dir_prefix_length dir (dir ++ '/' :: e') = dir.length := by
  obtain ⟨dt, rfl⟩ := absolute_shape hd
  have hguard : ¬(('/' :: dt) = [] ∨ ('/' :: dt) ++ '/' :: e' = [] ∨ ('/' :: dt) = ['/']
      ∨ ('/' :: dt) ++ '/' :: e' = ['/']) := by
    simp only [not_or]
    refine ⟨by simp, by simp, hne, ?_⟩
    intro h
    have hlen := congrArg List.length h
    simp only [List.length_append, List.length_cons, List.length_nil] at hlen
    omega
  rw [common_dir_prefix_length, if_neg hguard, firstDiff_append]
  rw [if_neg (fun hcon => by
    have h2 := hcon.2
    simp only [List.length_append, List.length_cons] at h2
    omega)]
  rw [if_pos ⟨rfl, by rw [getD_append_head (by simp)]; rfl⟩]

theorem common_append_other (dir e : List Char) (hd : is_absolute_path dir = true)
    (hne : dir ≠ ['/']) (he : e ≠ []) (hh : e.headD ' ' ≠ '/') :
    common_dir_prefix_length dir (dir ++ e) < dir.length
      ∧ dir.getD (common_dir_prefix_length dir (dir ++ e)) ' ' = '/'
      ∧ ∀ j, common_dir_prefix_length dir (dir ++ e) < j → j < dir.length →
          dir.getD j ' ' ≠ '/' := by
  have hlen1 : 1 ≤ dir.length := by
    obtain ⟨dt, rfl⟩ := absolute_shape hd
    simp
  have helen : 1 ≤ e.length := by
    cases e with
    | nil => exact absurd rfl he
    | cons x xs => simp
  have hcommon : common_dir_prefix_length dir (dir ++ e)
      = Nat.findGreatest (boundary_at dir (dir ++ e)) (dir.length - 1) := by
    obtain ⟨dt, rfl⟩ := absolute_shape hd
    have hguard : ¬(('/' :: dt) = [] ∨ ('/' :: dt) ++ e = [] ∨ ('/' :: dt) = ['/']
        ∨ ('/' :: dt) ++ e = ['/']) := by
      simp only [not_or]
      refine ⟨by simp, by simp, hne, ?_⟩
      intro h
      have hdt : dt ≠ [] := fun hcon => hne (by rw [hcon])
      have hlen := congrArg List.length h
      simp only [List.length_append, List.length_cons, List.length_nil] at hlen
      have : 1 ≤ dt.length := by
        cases dt with
        | nil => exact absurd rfl hdt
        | cons x xs => simp
      omega
    rw [common_dir_prefix_length, if_neg hguard, firstDiff_append]
    rw [if_neg (fun hcon => by
      have h2 := hcon.2
      simp only [List.length_append, List.length_cons] at h2
      omega)]
    rw [if_neg (fun hcon => by
      have h2 := hcon.2
      rw [getD_append_head he] at h2
      exact hh h2)]
    rw [if_neg (fun hcon => by
      have h1 := hcon.1
      simp only [List.length_append, List.length_cons] at h1
      omega)]
    exact backtrack_eq_findGreatest ('/' :: dt) (('/' :: dt) ++ e) (('/' :: dt).length - 1)
      (by rw [firstDiff_append]; omega)
      (by omega)
      (by simp only [List.length_append]; omega)
  refine ⟨?_, ?_, ?_⟩
  · rw [hcommon]
    have hfg : Nat.findGreatest (boundary_at dir (dir ++ e)) (dir.length - 1)
        ≤ dir.length - 1 := Nat.findGreatest_le _
    omega
  · rw [hcommon]
    by_cases hc0 : Nat.findGreatest (boundary_at dir (dir ++ e)) (dir.length - 1) = 0
    · rw [hc0]
      obtain ⟨dt, rfl⟩ := absolute_shape hd
      rfl
    · have hb := Nat.findGreatest_of_ne_zero rfl hc0
      have hlt : Nat.findGreatest (boundary_at dir (dir ++ e)) (dir.length - 1)
          < dir.length := by
        have hfg : Nat.findGreatest (boundary_at dir (dir ++ e)) (dir.length - 1)
            ≤ dir.length - 1 := Nat.findGreatest_le _
        omega
      rcases hb.1 with h1 | h1
      · omega
      · exact h1
  · intro j hcj hjlen hcontra
    rw [hcommon] at hcj
    refine Nat.findGreatest_is_greatest hcj (by omega) ?_
    exact ⟨Or.inr hcontra, Or.inr (by rw [getD_append_lt hjlen]; exact hcontra)⟩

theorem rel_of_root (path : List Char) (hp : is_absolute_path path = true) :
    get_relative_path ['/'] path
      = (if dropTrailingSlashes (path.drop 1) = [] then ['.']
         else dropTrailingSlashes (path.drop 1)) := by
  have hc : common_dir_prefix_length ['/'] path = 0 := by
    rw [common_dir_prefix_length, if_pos (Or.inr (Or.inr (Or.inl rfl)))]
  have hlen : 0 < path.length := by
    obtain ⟨pt, rfl⟩ := absolute_shape hp
    simp
  rw [get_relative_path, hc,
    if_neg (show ¬(0 < 0 ∨ (['/'] : List Char) ≠ ['/']) from by simp),
    if_pos (show 0 < path.length from hlen),
    show ((if ([] : List Char) = [] then ([] : List Char) else [] ++ ['/'])
      ++ path.drop (0 + 1)) = path.drop 1 from by simp]

theorem rel_self (dir : List Char) (hd : is_absolute_path dir = true)
    (hne : dir ≠ ['/']) : get_relative_path dir dir = ['.'] := by
  have hlen : 1 ≤ dir.length := by
    obtain ⟨dt, rfl⟩ := absolute_shape hd
    simp
  have hgate : 0 < dir.length ∨ dir ≠ ['/'] := Or.inl hlen
  rw [get_relative_path, common_self dir hd hne, if_pos hgate, List.drop_length,
    if_neg (show ¬dir.length < dir.length from by omega)]
  rfl

theorem rel_append_slash (dir e' : List Char) (hd : is_absolute_path dir = true)
    (hne : dir ≠ ['/']) :
    get_relative_path dir (dir ++ '/' :: e')
      = (if dropTrailingSlashes e' = [] then ['.'] else dropTrailingSlashes e') := by
  have hlen : 1 ≤ dir.length := by
    obtain ⟨dt, rfl⟩ := absolute_shape hd
    simp
  have hgate : 0 < dir.length ∨ dir ≠ ['/'] := Or.inl hlen
  have hlt : dir.length < (dir ++ '/' :: e').length := by
    simp only [List.length_append, List.length_cons]
    omega
  have hdrop : (dir ++ '/' :: e').drop (dir.length + 1) = e' := by
    have h2 : (dir ++ '/' :: e').drop (dir.length + 1) = ('/' :: e').drop 1 :=
      List.drop_append 1
    rw [h2, List.drop_succ_cons, List.drop_zero]
  rw [get_relative_path, common_append_slash dir e' hd hne, if_pos hgate,
    List.drop_length, if_pos hlt,
    show addDotDots [] ([] : List Char) = [] from rfl,
    show ((if ([] : List Char) = [] then ([] : List Char) else [] ++ ['/'])
      ++ (dir ++ '/' :: e').drop (dir.length + 1)) = e' from by rw [hdrop]; simp]

theorem rel_append_other (dir e : List Char) (hd : is_absolute_path dir = true)
    (hne : dir ≠ ['/']) (he : e ≠ []) (hh : e.headD ' ' ≠ '/')
    (hLne : dir.drop (common_dir_prefix_length dir (dir ++ e) + 1) ≠ []) :
    get_relative_path dir (dir ++ e)
      = ['.', '.'] ++ '/'
          :: dropTrailingSlashes
            (dir.drop (common_dir_prefix_length dir (dir ++ e) + 1) ++ e) := by
  obtain ⟨hclt, hcslash, hcmax⟩ := common_append_other dir e hd hne he hh
  have hLslash : '/' ∉ dir.drop (common_dir_prefix_length dir (dir ++ e) + 1) :=
    no_slash_drop hcmax
  have hdropc : dir.drop (common_dir_prefix_length dir (dir ++ e))
      = '/' :: dir.drop (common_dir_prefix_length dir (dir ++ e) + 1) := by
    rw [List.drop_eq_getElem_cons hclt]
    congr 1
    rw [← List.getD_eq_getElem dir ' ' hclt, hcslash]
  have hdots : addDotDots [] (dir.drop (common_dir_prefix_length dir (dir ++ e)))
      = ['.', '.'] := by
    rw [hdropc, addDotDots, if_pos rfl]
    rw [show ((if ([] : List Char) = [] then ([] : List Char) else [] ++ ['/'])
        ++ ['.', '.']) = ['.', '.'] from by simp]
    refine addDotDots_no_slash _ fun x hx hcon => ?_
    exact hLslash (hcon ▸ hx)
  have hTne : dropTrailingSlashes
      (dir.drop (common_dir_prefix_length dir (dir ++ e) + 1) ++ e) ≠ [] := by
    refine dropTrailing_ne_nil ?_
    cases hL : dir.drop (common_dir_prefix_length dir (dir ++ e) + 1) with
    | nil => exact absurd hL hLne
    | cons x xs =>
      refine ⟨x, by simp, fun hcon => ?_⟩
      exact hLslash (by rw [hL]; exact hcon ▸ List.mem_cons_self ..)
  have hgate : 0 < common_dir_prefix_length dir (dir ++ e) ∨ dir ≠ ['/'] := Or.inr hne
  have hlt2 : common_dir_prefix_length dir (dir ++ e) < (dir ++ e).length := by
    simp only [List.length_append]
    omega
  rw [get_relative_path, if_pos hgate, hdots, if_pos hlt2,
    if_neg (show ¬(['.', '.'] : List Char) = [] from by simp),
    List.drop_append_of_le_length
      (show common_dir_prefix_length dir (dir ++ e) + 1 ≤ dir.length from by omega),
    dropTrailing_append_of_ne_nil (['.', '.'] ++ ['/']) hTne,
    if_neg (show ¬((['.', '.'] ++ ['/'])
      ++ dropTrailingSlashes (dir.drop (common_dir_prefix_length dir (dir ++ e) + 1) ++ e)
        = []) from by simp)]
  simp

theorem foldl_splitSlash_relResult (S : List (List Char)) (e : List Char) :
    (splitSlash (if dropTrailingSlashes e = [] then ['.']
        else dropTrailingSlashes e)).foldl normStep S
      = (splitSlash e).foldl normStep S := by
  by_cases h : dropTrailingSlashes e = []
  · rw [if_pos h, ← foldl_splitSlash_dropTrailing S e, h,
      splitSlash_no_slash ['.'] (by decide)]
    rw [show splitSlash [] = [[]] from rfl]
    rw [List.foldl_cons, List.foldl_nil, List.foldl_cons, List.foldl_nil,
      normStep_of_empty, normStep, if_neg (by decide), if_pos (Or.inl rfl)]
  · rw [if_neg h, foldl_splitSlash_dropTrailing]

theorem stack_core_pop (dt A' L e : List Char)
    (hdt : dt = A' ++ '/' :: L ∨ dt = L)
    (hL : '/' ∉ L) (hLne : L ≠ []) (hdot : L ≠ ['.']) (hdd : L ≠ ['.', '.']) :
    (splitSlash (dt ++ '/' :: (['.', '.'] ++ '/' :: dropTrailingSlashes (L ++ e)))).foldl
        normStep []
      = (splitSlash (dt ++ e)).foldl normStep [] := by
  rcases hdt with h | h
  · subst h
    have h1 : (A' ++ '/' :: L)
          ++ '/' :: (['.', '.'] ++ '/' :: dropTrailingSlashes (L ++ e))
        = A' ++ '/' :: (L ++ '/' :: (['.', '.'] ++ '/' :: dropTrailingSlashes (L ++ e))) := by
      simp
    have h2 : (A' ++ '/' :: L) ++ e = A' ++ '/' :: (L ++ e) := by simp
    rw [h1, h2, foldl_splitSlash_append ([] : List (List Char)) A',
      foldl_splitSlash_append ([] : List (List Char)) A']
    exact foldl_pop_core _ L e hL hLne hdot hdd
  · subst h
    exact foldl_pop_core [] dt e hL hLne hdot hdd

/-- Counterexample to claim C4 as stated: dir "/a/" and path "/a/b" are
absolute and path starts with dir, but the relative path comes out as
"../b", so the lexical join normalizes to "/b" while path normalizes to
"/a/b".  The trailing slash makes the single emitted dot-dot pop the
component a instead of the empty component. -/
theorem claim_C4_counterexample :
    is_absolute_path "/a/".data = true
      ∧ is_absolute_path "/a/b".data = true
      ∧ "/a/b".data = "/a/".data ++ "b".data
      ∧ ¬normalize_absolute_path
            ("/a/".data ++ '/' :: get_relative_path "/a/".data "/a/b".data)
          = normalize_absolute_path "/a/b".data := by
  refine ⟨by decide, by decide, by decide, by decide⟩

/-- Amended claim C4: for absolute dir and path with path starting with dir,
and dir either the root or ending in a component that is nonempty and not a
dot or dot-dot, the lexical join of dir and get_relative_path(dir, path)
normalizes to the normalization of path. -/
theorem claim_C4_amended :
    ∀ dir path : List Char,
      is_absolute_path dir = true → is_absolute_path path = true →
      dir <+: path →
      (dir = ['/'] ∨ (afterLastSlash dir ≠ [] ∧ afterLastSlash dir ≠ ['.']
        ∧ afterLastSlash dir ≠ ['.', '.'])) →
      normalize_absolute_path (dir ++ '/' :: get_relative_path dir path)
        = normalize_absolute_path path := by
  intro dir path hd hp hpre hlast
  obtain ⟨e, rfl⟩ := hpre
  have hjoin : is_absolute_path (dir ++ '/' :: get_relative_path dir (dir ++ e)) = true := by
    obtain ⟨dt, rfl⟩ := absolute_shape hd
    rfl
  rw [normalize_eq_render _ hjoin, normalize_eq_render _ hp]
  suffices hst : stackOf (dir ++ '/' :: get_relative_path dir (dir ++ e))
      = stackOf (dir ++ e) by rw [hst]
  obtain ⟨dt, rfl⟩ := absolute_shape hd
  have hSt : ∀ X : List Char,
      stackOf (('/' :: dt) ++ X) = (splitSlash (dt ++ X)).foldl normStep [] :=
    fun X => rfl
  by_cases hroot : ('/' :: dt) = ['/']
  · have hdt : dt = [] := by injection hroot
    subst hdt
    have hrel := rel_of_root (('/' :: ([] : List Char)) ++ e) hp
    rw [show ((('/' :: ([] : List Char)) ++ e)).drop 1 = e from rfl] at hrel
    rw [hrel, hSt, hSt]
    simp only [List.nil_append]
    rw [splitSlash, if_pos rfl, List.foldl_cons, normStep_of_empty]
    exact foldl_splitSlash_relResult [] e
  · have hgood : afterLastSlash ('/' :: dt) ≠ [] ∧ afterLastSlash ('/' :: dt) ≠ ['.']
        ∧ afterLastSlash ('/' :: dt) ≠ ['.', '.'] := by
      rcases hlast with h | h
      · exact absurd h hroot
      · exact h
    cases e with
    | nil =>
      rw [List.append_nil, rel_self ('/' :: dt) hd hroot, hSt]
      rw [show stackOf ('/' :: dt) = (splitSlash dt).foldl normStep [] from rfl]
      rw [foldl_splitSlash_append, splitSlash_no_slash ['.'] (by decide),
        List.foldl_cons, List.foldl_nil, normStep, if_neg (by decide),
        if_pos (Or.inl rfl)]
    | cons e0 e' =>
      by_cases he0 : e0 = '/'
      · subst he0
        rw [rel_append_slash ('/' :: dt) e' hd hroot, hSt, hSt,
          foldl_splitSlash_append, foldl_splitSlash_append]
        exact foldl_splitSlash_relResult _ e'
      · have he : (e0 :: e') ≠ [] := by simp
        have hh : (e0 :: e').headD ' ' ≠ '/' := by simpa using he0
        obtain ⟨hclt, hcslash, hcmax⟩ :=
          common_append_other ('/' :: dt) (e0 :: e') hd hroot he hh
        have hLslash : '/' ∉ ('/' :: dt).drop
            (common_dir_prefix_length ('/' :: dt) (('/' :: dt) ++ e0 :: e') + 1) :=
          no_slash_drop hcmax
        have hsplit := take_slash_drop hclt hcslash
        have hafter : afterLastSlash ('/' :: dt)
            = ('/' :: dt).drop
                (common_dir_prefix_length ('/' :: dt) (('/' :: dt) ++ e0 :: e') + 1) := by
          conv_lhs => rw [← hsplit]
          exact afterLastSlash_concat _ hLslash
        have hLne := hafter ▸ hgood.1
        have hLdot := hafter ▸ hgood.2.1
        have hLdd := hafter ▸ hgood.2.2
        rw [rel_append_other ('/' :: dt) (e0 :: e') hd hroot he hh hLne, hSt, hSt]
        by_cases hc0 : common_dir_prefix_length ('/' :: dt) (('/' :: dt) ++ e0 :: e') = 0
        · rw [hc0] at hLslash hLne hLdot hLdd ⊢
          exact stack_core_pop dt [] _ (e0 :: e') (Or.inr rfl) hLslash hLne hLdot hLdd
        · obtain ⟨k, hk⟩ : ∃ k,
              common_dir_prefix_length ('/' :: dt) (('/' :: dt) ++ e0 :: e') = k + 1 :=
            ⟨common_dir_prefix_length ('/' :: dt) (('/' :: dt) ++ e0 :: e') - 1, by omega⟩
          rw [hk] at hsplit hLslash hLne hLdot hLdd ⊢
          have hdrop2 : ('/' :: dt).drop (k + 1 + 1) = dt.drop (k + 1) := rfl
          rw [hdrop2] at hsplit hLslash hLne hLdot hLdd ⊢
          have htake : ('/' :: dt).take (k + 1) = '/' :: dt.take k := rfl
          rw [htake, List.cons_append] at hsplit
          have hdtdec : dt = dt.take k ++ '/' :: dt.drop (k + 1) := by
            have h2 := hsplit
            rw [List.cons.injEq] at h2
            exact h2.2.symm
          exact stack_core_pop dt (dt.take k) (dt.drop (k + 1)) (e0 :: e')
            (Or.inl hdtdec) hLslash hLne hLdot hLdd

/-- Witness for the amended claim C4 at the S3 instance. -/
theorem claim_C4_witness :
    normalize_absolute_path
        ("/home/u/proj".data ++ '/'
          :: get_relative_path "/home/u/proj".data "/home/u/proj/src/x.c".data)
      = normalize_absolute_path "/home/u/proj/src/x.c".data :=
  claim_C4_amended "/home/u/proj".data "/home/u/proj/src/x.c".data (by decide) (by decide)
    ⟨"/src/x.c".data, by decide⟩ (Or.inr (by decide))

